import Mathlib

/-!
Shallow embedding of `madminer/utils/various.py` and proofs about its
helper functions: `format_benchmark`, `shuffle`, `balance_thetas`,
`load_and_check`, `call_command`, `create_missing_folders` and
`math_commands`.

Numeric values are modelled over `ℚ` (with an explicit NaN/±Inf carrier
where the code manipulates IEEE special values), arrays over lists,
filenames and filesystems over explicit data, and the ambient random
number generator and spawned processes as explicit function parameters.
Fallible code returns `Except MMError`.
-/

namespace Madminer

/-- The error kinds the module can raise: the `assert` statements in
`shuffle` and `balance_thetas`, Python's `max([])` ValueError, the
`i % 0` ZeroDivisionError reachable in `balance_thetas`, a failure of
`os.makedirs`, and the explicit `OSError` of `create_missing_folders`
("Path ... exists, but is no directory!"), which carries the path. -/
inductive MMError
  | assertionViolation
  | valueError
  | zeroDivision
  | makedirsFailed
  | pathConflict (p : List String)
  deriving DecidableEq

/-! ## format_benchmark -/

/-- The two rendering branches of `format_benchmark`: `'{0:.Ne}'`
(scientific) versus `'{0:.Nf}'` (fixed-point). -/
inductive RenderStyle
  | scientific
  | fixedPoint
  deriving DecidableEq

/-- The branch selection of `format_benchmark` for one value, from the source:
`if value < 2. * 10. ** (- precision) or value > 100.` — the comparison is
on the signed value, not its absolute value. -/
def renderStyle (precision : ℤ) (value : ℚ) : RenderStyle :=
  if value < 2 * (10 : ℚ) ^ (-precision) ∨ value > 100 then
    RenderStyle.scientific
  else
    RenderStyle.fixedPoint

/-- `format_benchmark`, abstracting each rendered `"name = value"` entry to
the pair of its key and the rendering branch chosen for its value; the
entries appear comma-joined in input order in the real output string. -/
def format_benchmark (parameters : List (String × ℚ)) (precision : ℤ) :
    List (String × RenderStyle) :=
  parameters.map (fun kv => (kv.1, renderStyle precision kv.2))

/-- Spec-comparison definition, following the claim's words: select
scientific exactly when `abs(value) < 2*10^-precision or abs(value) > 100`. -/
def absSelectsScientific (precision : ℤ) (value : ℚ) : Bool :=
  decide (|value| < 2 * (10 : ℚ) ^ (-precision)) || decide (|value| > 100)

/-! ## math_commands -/

/-- `math_commands`: the ordered name-to-function table, with Python's
`math.exp`, `math.sin`, ... modelled by the real functions they compute. -/
noncomputable def math_commands : List (String × (ℝ → ℝ)) :=
  [("exp", Real.exp), ("sin", Real.sin), ("cos", Real.cos), ("tan", Real.tan),
   ("acos", Real.arccos), ("asin", Real.arcsin), ("atan", Real.arctan)]

/-! ## load_and_check -/

/-- A stored numeric value: NaN, ±Inf, or a finite number. -/
inductive FloatVal
  | nan
  | inf
  | neginf
  | fin (q : ℚ)
  deriving DecidableEq

def FloatVal.isNan : FloatVal → Bool
  | .nan => true
  | _ => false

def FloatVal.isInf : FloatVal → Bool
  | .inf => true
  | .neginf => true
  | _ => false

def FloatVal.isFinite : FloatVal → Bool
  | .fin _ => true
  | _ => false

/-- A total comparison on `FloatVal` with `-inf < finite < inf < nan`;
its restriction to non-NaN values is the IEEE order that `np.nanmin` /
`np.nanmax` minimise and maximise over (they ignore NaN entries only). -/
def fle : FloatVal → FloatVal → Bool
  | _, .nan => true
  | .nan, _ => false
  | .neginf, _ => true
  | _, .neginf => false
  | .fin a, .fin b => decide (a ≤ b)
  | .fin _, .inf => true
  | .inf, .fin _ => false
  | .inf, .inf => true

def fmin (a b : FloatVal) : FloatVal := if fle a b then a else b

def fmax (a b : FloatVal) : FloatVal := if fle a b then b else a

/-- The value `np.nanmin` computes on a nonempty array: the minimum over
the non-NaN entries (±Inf included); NaN when every entry is NaN. -/
def nanminVal (data : List FloatVal) : FloatVal :=
  match data.filter (fun x => !x.isNan) with
  | [] => FloatVal.nan
  | x :: xs => xs.foldl fmin x

/-- The value `np.nanmax` computes on a nonempty array: the maximum over
the non-NaN entries (±Inf included); NaN when every entry is NaN. -/
def nanmaxVal (data : List FloatVal) : FloatVal :=
  match data.filter (fun x => !x.isNan) with
  | [] => FloatVal.nan
  | x :: xs => xs.foldl fmax x

/-- `np.nanmin`: raises ValueError on a zero-size array (a reduction with
no identity); otherwise the minimum over the non-NaN entries. -/
def nanmin (data : List FloatVal) : Except MMError FloatVal :=
  match data with
  | [] => Except.error MMError.valueError
  | _ :: _ => Except.ok (nanminVal data)

/-- `np.nanmax`: raises ValueError on a zero-size array (a reduction with
no identity); otherwise the maximum over the non-NaN entries. -/
def nanmax (data : List FloatVal) : Except MMError FloatVal :=
  match data with
  | [] => Except.error MMError.valueError
  | _ :: _ => Except.ok (nanmaxVal data)

/-- `np.abs(x) > t` for a finite threshold `t`: false for NaN (comparisons
with NaN are false), true for ±Inf, `|q| > t` for finite `q`. -/
def absGT (x : FloatVal) (t : ℚ) : Bool :=
  match x with
  | .nan => false
  | .inf => true
  | .neginf => true
  | .fin q => decide (|q| > t)

/-- What one call of `load_and_check` produces: the returned data (or
`none`) and whether each of the two warnings was logged. -/
structure LoadReport where
  data : Option (List FloatVal)
  nanInfWarning : Bool
  rangeWarning : Bool
  deriving DecidableEq

/-- `load_and_check`: `filename` is `None` or a name, `load` models
`np.load` (what the file holds). Returns `None` for `None` input without
loading; otherwise loads, logs the NaN/Inf warning when `n_nans + n_infs > 0`,
then computes `np.nanmin(data)` and `np.nanmax(data)` — which raise
ValueError on a zero-size array — logs the range warning when
`|np.nanmin(data)| > t` or `|np.nanmax(data)| > t`, and returns the data. -/
def load_and_check {γ : Type} (filename : Option γ) (load : γ → List FloatVal)
    (warning_threshold : ℚ) : Except MMError LoadReport :=
  match filename with
  | none => Except.ok ⟨none, false, false⟩
  | some f =>
    let data := load f
    let n_nans := (data.filter (fun x => x.isNan)).length
    let n_infs := (data.filter (fun x => x.isInf)).length
    let warn1 := decide (0 < n_nans + n_infs)
    match nanmin data with
    | Except.error e => Except.error e
    | Except.ok smallest =>
      match nanmax data with
      | Except.error e => Except.error e
      | Except.ok largest =>
        Except.ok ⟨some data, warn1,
          absGT smallest warning_threshold || absGT largest warning_threshold⟩

/-- Spec-comparison definition, following the claim's words: the range
warning computed from the minimum and maximum of the *finite* entries
only (NaN and ±Inf excluded), false when no finite entry exists. -/
def finite_range_warning (data : List FloatVal) (t : ℚ) : Bool :=
  match data.filterMap (fun x => match x with | .fin q => some q | _ => none) with
  | [] => false
  | q :: qs => decide (|qs.foldl min q| > t) || decide (|qs.foldl max q| > t)

/-! ## shuffle -/

/-- numpy fancy indexing `a[permutation]`: entry `j` of the result is
`a[permutation[j]]`. -/
def applyPerm {α : Type} [Inhabited α] (p : List ℕ) (a : List α) : List α :=
  p.map (fun j => a.getD j default)

/-- The loop of `shuffle`. The state is `None` before the first non-`None`
array is seen, and `(n_samples, permutation)` afterwards; `genPerm` models
`np.random.permutation`. Each non-`None` array must have leading length
`n_samples` (the `assert`), and is reindexed by the permutation. -/
def shuffleGo {α : Type} [Inhabited α] (genPerm : ℕ → List ℕ) :
    Option (ℕ × List ℕ) → List (Option (List α)) →
    Except MMError (List (Option (List α)))
  | _, [] => Except.ok []
  | st, none :: rest =>
    match shuffleGo genPerm st rest with
    | Except.error e => Except.error e
    | Except.ok r => Except.ok (none :: r)
  | st, some a :: rest =>
    let s := match st with
      | none => (a.length, genPerm a.length)
      | some s0 => s0
    if a.length = s.1 then
      match shuffleGo genPerm (some s) rest with
      | Except.error e => Except.error e
      | Except.ok r => Except.ok (some (applyPerm s.2 a) :: r)
    else Except.error MMError.assertionViolation

/-- `shuffle(*arrays)`: shuffles multiple arrays simultaneously with one
permutation drawn from `genPerm` at the first non-`None` array's length. -/
def shuffle {α : Type} [Inhabited α] (genPerm : ℕ → List ℕ)
    (arrays : List (Option (List α))) : Except MMError (List (Option (List α))) :=
  shuffleGo genPerm none arrays

/-! ## balance_thetas -/

/-- `n_sets = max([len(thetas) for thetas in theta_sets_types])`:
Python's `max` of a list, raising ValueError on an empty list. -/
def nSetsOf {α : Type} (theta_sets_types : List (List α)) : Except MMError ℕ :=
  match theta_sets_types.map List.length with
  | [] => Except.error MMError.valueError
  | n0 :: ns => Except.ok (ns.foldl Nat.max n0)

/-- The loop of `balance_thetas` over `zip(theta_sets_types, theta_sets_values)`
(`zip` stops at the shorter list; the remainder passes through unchanged).
Per pair: `assert len(types) == len(values)`; when the length differs from
`n`, both lists are rebuilt by modulo indexing over `range(n)` (Python 3
comprehension scoping: the comprehension's `i` is local), raising
ZeroDivisionError when the original length is `0` (`i % 0`). -/
def balanceGo {α β : Type} [Inhabited α] [Inhabited β] (n : ℕ) :
    List (List α) → List (List β) →
    Except MMError (List (List α) × List (List β))
  | [], vs => Except.ok ([], vs)
  | t :: ts, [] => Except.ok (t :: ts, [])
  | t :: ts, v :: vs =>
    if t.length = v.length then
      if t.length = n then
        match balanceGo n ts vs with
        | Except.error e => Except.error e
        | Except.ok r => Except.ok (t :: r.1, v :: r.2)
      else if t.length = 0 then Except.error MMError.zeroDivision
      else
        match balanceGo n ts vs with
        | Except.error e => Except.error e
        | Except.ok r =>
          Except.ok ((List.range n).map (fun j => t.getD (j % t.length) default) :: r.1,
                     (List.range n).map (fun j => v.getD (j % v.length) default) :: r.2)
    else Except.error MMError.assertionViolation

/-- `balance_thetas`: repeats theta values such that all theta lists have
the same length `n_sets`. -/
def balance_thetas {α β : Type} [Inhabited α] [Inhabited β]
    (theta_sets_types : List (List α)) (theta_sets_values : List (List β)) :
    Except MMError (List (List α) × List (List β)) :=
  match nSetsOf theta_sets_types with
  | Except.error e => Except.error e
  | Except.ok n => balanceGo n theta_sets_types theta_sets_values

/-- The per-set effect `balance_thetas` is claimed to have: a set already
of length `n` is untouched, a shorter one is rebuilt to length `n` by
modulo indexing into the original list. -/
def extendTo {γ : Type} [Inhabited γ] (n : ℕ) (l : List γ) : List γ :=
  if l.length = n then l else (List.range n).map (fun j => l.getD (j % l.length) default)

/-! ## call_command -/

/-- The data `call_command`'s RuntimeError message carries: always the
command and exit code, plus the log-file path when one was given, or the
captured standard output and error text otherwise. -/
structure CommandFailed where
  cmd : String
  exitcode : ℤ
  logFile : Option String
  captured : Option (String × String)
  deriving DecidableEq

/-- `call_command(cmd, log_file)`: `run` models the operating system
(exit code, standard output, standard error of a command). With a log
file, output goes to the file and the error carries the log path; without
one, output is captured in memory and the error carries it. Non-zero exit
raises; otherwise the exit code is returned. -/
def call_command (run : String → ℤ × String × String) (cmd : String)
    (log_file : Option String) : Except CommandFailed ℤ :=
  match log_file with
  | some lf =>
    let r := run cmd
    if r.1 ≠ 0 then Except.error ⟨cmd, r.1, some lf, none⟩
    else Except.ok r.1
  | none =>
    let r := run cmd
    if r.1 ≠ 0 then Except.error ⟨cmd, r.1, none, some (r.2.1, r.2.2)⟩
    else Except.ok r.1

/-! ## create_missing_folders -/

/-- A filesystem: paths are lists of components from the root; `dirs`
holds the existing directories, `files` every other kind of entry.
Well-formedness (`Fs.wf`) asks that ancestors of directories are
directories and that no path is both a directory and a file. -/
structure Fs where
  dirs : List (List String)
  files : List (List String)
  deriving DecidableEq

def Fs.existsPath (fs : Fs) (p : List String) : Bool :=
  decide (p ∈ fs.dirs) || decide (p ∈ fs.files)

def Fs.isDir (fs : Fs) (p : List String) : Bool :=
  decide (p ∈ fs.dirs)

def Fs.wf (fs : Fs) : Prop :=
  (∀ p ∈ fs.dirs, ∀ q ∈ p.inits, q ∈ fs.dirs) ∧ (∀ p ∈ fs.dirs, p ∉ fs.files)

/-- `os.makedirs(p)`: creates `p` together with every missing ancestor
directory (the initial segments of `p`); fails when an ancestor exists as
a non-directory. -/
def makedirs (fs : Fs) (p : List String) : Except MMError Fs :=
  if p.inits.any (fun q => decide (q ∈ fs.files)) then Except.error MMError.makedirsFailed
  else Except.ok ⟨p.inits ++ fs.dirs, fs.files⟩

/-- `create_missing_folders(folders)`: for each path, create it (with
parents) when it does not exist, raise the path-conflict OSError when it
exists as a non-directory, and skip it when it is already a directory. -/
def create_missing_folders (fs : Fs) : List (List String) → Except MMError Fs
  | [] => Except.ok fs
  | folder :: rest =>
    if fs.existsPath folder = false then
      match makedirs fs folder with
      | Except.error e => Except.error e
      | Except.ok fs2 => create_missing_folders fs2 rest
    else if fs.isDir folder = false then Except.error (MMError.pathConflict folder)
    else create_missing_folders fs rest

/-! ## Theorems -/

/-- C1 (corrected): `format_benchmark` keeps the entries in input order
under their keys, and renders a value in scientific style exactly when
`value < 2 * 10 ^ (-precision)` or `value > 100` — the comparison is on
the signed value, no absolute value is taken — and in fixed-point style
at the given precision otherwise. -/
theorem format_benchmark_scientific_iff (precision : ℤ) (params : List (String × ℚ)) :
    List.Forall₂
      (fun kv out => out.1 = kv.1 ∧
        (out.2 = RenderStyle.scientific ↔
          (kv.2 < 2 * (10 : ℚ) ^ (-precision) ∨ kv.2 > 100)))
      params (format_benchmark params precision) := by
  induction params with
  | nil => exact List.Forall₂.nil
  | cons kv rest ih =>
    simp only [format_benchmark, List.map] at *
    refine List.Forall₂.cons ⟨rfl, ?_⟩ ih
    by_cases h : kv.2 < 2 * (10 : ℚ) ^ (-precision) ∨ kv.2 > 100
    · simp only [renderStyle, if_pos h]
      exact iff_of_true trivial h
    · simp only [renderStyle, if_neg h]
      exact iff_of_false (fun hc => RenderStyle.noConfusion hc) h

/-- C1 counterexample: at precision 2 and value -1 the code picks the
scientific branch (because -1 < 0.02 as a signed comparison), while the
claim's absolute-value rule selects fixed-point (0.02 ≤ |-1| ≤ 100). -/
theorem format_benchmark_abs_counterexample :
    format_benchmark [("theta", -1)] 2 = [("theta", RenderStyle.scientific)] ∧
    absSelectsScientific 2 (-1) = false := by
  constructor
  · have h : ((-1 : ℚ) < 2 * (10 : ℚ) ^ (-(2 : ℤ)) ∨ ((-1 : ℚ) > 100)) := by
      left
      norm_num
    simp only [format_benchmark, List.map, renderStyle, if_pos h]
  · simp only [absSelectsScientific, Bool.or_eq_false_iff, decide_eq_false_iff_not,
      not_lt, abs_neg, abs_one]
    constructor
    · norm_num
    · norm_num

/-- C9 (confirmed): `math_commands` has exactly the seven keys
`exp, sin, cos, tan, acos, asin, atan` in that order, each looked up to
the corresponding math function, and the function under `sin` sends 0
to 0. -/
theorem math_commands_spec :
    math_commands.map Prod.fst = ["exp", "sin", "cos", "tan", "acos", "asin", "atan"] ∧
    math_commands.lookup "exp" = some Real.exp ∧
    math_commands.lookup "sin" = some Real.sin ∧
    math_commands.lookup "cos" = some Real.cos ∧
    math_commands.lookup "tan" = some Real.tan ∧
    math_commands.lookup "acos" = some Real.arccos ∧
    math_commands.lookup "asin" = some Real.arcsin ∧
    math_commands.lookup "atan" = some Real.arctan ∧
    (∃ f, math_commands.lookup "sin" = some f ∧ f 0 = 0) :=
  ⟨rfl, rfl, rfl, rfl, rfl, rfl, rfl, rfl, Real.sin, rfl, Real.sin_zero⟩

/-- On a nonempty loaded array, `load_and_check` succeeds and its report
holds the array itself and the two warning flags the source computes. -/
lemma load_and_check_some_ne_nil {γ : Type} (f : γ) (load : γ → List FloatVal)
    (t : ℚ) (hne : load f ≠ []) :
    load_and_check (some f) load t =
      Except.ok ⟨some (load f),
        decide (0 < ((load f).filter (fun x => x.isNan)).length +
          ((load f).filter (fun x => x.isInf)).length),
        absGT (nanminVal (load f)) t || absGT (nanmaxVal (load f)) t⟩ := by
  rcases hd : load f with _ | ⟨a, as⟩
  · exact absurd hd hne
  · simp only [load_and_check, hd, nanmin, nanmax]

/-- C6 (corrected): `load_and_check None` is `None` with no warnings, for
every possible file content (no file is consulted); for every filename
whose file loads as a nonempty array, the loaded array itself is
returned, whatever warnings its NaN/Inf entries or magnitudes trigger.
An empty loaded array instead raises (ValueError at `np.nanmin`). -/
theorem load_and_check_none_and_data :
    (∀ (γ : Type) (load : γ → List FloatVal) (t : ℚ),
      load_and_check (none : Option γ) load t = Except.ok ⟨none, false, false⟩) ∧
    (∀ (γ : Type) (f : γ) (load : γ → List FloatVal) (t : ℚ), load f ≠ [] →
      ∃ r, load_and_check (some f) load t = Except.ok r ∧ r.data = some (load f)) :=
  ⟨fun _ _ _ => rfl,
    fun _ f load t hne => ⟨_, load_and_check_some_ne_nil f load t hne, rfl⟩⟩

/-- C6 counterexample: a file holding an empty array loads fine, but
`load_and_check` raises ValueError at `np.nanmin` (a zero-size reduction
has no identity) instead of returning the array. -/
theorem load_and_check_empty_counterexample :
    load_and_check (some 0) (fun _ : ℕ => ([] : List FloatVal)) 1 =
      Except.error MMError.valueError := rfl

/-- C7 (confirmed): `call_command` fails exactly when the spawned command
exits non-zero; the error carries the command, the exit code, the
log-file path when one was given and the captured output/error text
otherwise; on success the returned exit code is 0. -/
theorem call_command_spec (run : String → ℤ × String × String) (cmd : String)
    (log_file : Option String) :
    ((call_command run cmd log_file).isOk = true ↔ (run cmd).1 = 0) ∧
    (∀ c, call_command run cmd log_file = Except.ok c → c = 0) ∧
    (∀ e, call_command run cmd log_file = Except.error e →
      e.cmd = cmd ∧ e.exitcode = (run cmd).1 ∧ e.logFile = log_file ∧
      (log_file = none → e.captured = some ((run cmd).2.1, (run cmd).2.2))) := by
  cases log_file <;> by_cases h : (run cmd).1 = 0 <;>
    simp_all [call_command, Except.isOk, Except.toBool]

/-- C10 (confirmed): `shuffle` on an empty argument list, or on arguments
that are all `None`, succeeds and returns them unchanged, for every
random-permutation source (so the result does not depend on any drawn
permutation). -/
theorem shuffle_none_passthrough (α : Type) [Inhabited α]
    (genPerm : ℕ → List ℕ) (k : ℕ) :
    shuffle (α := α) genPerm (List.replicate k none) =
      Except.ok (List.replicate k none) := by
  have h : ∀ (st : Option (ℕ × List ℕ)) (m : ℕ),
      shuffleGo (α := α) genPerm st (List.replicate m none) =
        Except.ok (List.replicate m none) := by
    intro st m
    induction m generalizing st with
    | zero => rfl
    | succ m ih => simp [List.replicate, shuffleGo, ih]
  exact h none k

/-- Once the permutation state is fixed at sample count `n`, the loop of
`shuffle` fails exactly when some remaining non-`None` array has a leading
length other than `n`. -/
lemma shuffleGo_some_isOk (α : Type) [Inhabited α] (genPerm : ℕ → List ℕ)
    (n : ℕ) (p : List ℕ) (rest : List (Option (List α))) :
    ((shuffleGo genPerm (some (n, p)) rest).isOk = false ↔
      ∃ l ∈ rest.filterMap id, l.length ≠ n) := by
  induction rest with
  | nil => simp [shuffleGo, Except.isOk, Except.toBool]
  | cons a rest ih =>
    cases a with
    | none =>
      rcases hr : shuffleGo genPerm (some (n, p)) rest with e | r
      · rw [hr] at ih
        simp only [shuffleGo, hr]
        simp only [Except.isOk, Except.toBool] at ih ⊢
        simpa using ih
      · rw [hr] at ih
        simp only [shuffleGo, hr]
        simp only [Except.isOk, Except.toBool] at ih ⊢
        simpa using ih
    | some l =>
      by_cases hl : l.length = n
      · rcases hr : shuffleGo genPerm (some (n, p)) rest with e | r
        · rw [hr] at ih
          simp [shuffleGo, hl, hr, Except.isOk, Except.toBool] at ih ⊢
          exact ih
        · rw [hr] at ih
          simp [shuffleGo, hl, hr, Except.isOk, Except.toBool] at ih ⊢
          exact ih
      · simp only [shuffleGo]
        rw [if_neg (by simpa using hl)]
        simp [Except.isOk, Except.toBool]
        exact Or.inl hl

/-- C5 (confirmed): `shuffle` hits its `assert` exactly when some
non-`None` argument's leading length differs from the leading length of
the first non-`None` argument; when all agree it succeeds. -/
theorem shuffle_length_assertion (α : Type) [Inhabited α] (genPerm : ℕ → List ℕ)
    (arrays : List (Option (List α))) :
    ((shuffle genPerm arrays).isOk = false ↔
      ∃ l0, (arrays.filterMap id).head? = some l0 ∧
        ∃ l ∈ arrays.filterMap id, l.length ≠ l0.length) := by
  induction arrays with
  | nil => simp [shuffle, shuffleGo, Except.isOk, Except.toBool]
  | cons a rest ih =>
    cases a with
    | none =>
      simp only [shuffle] at ih ⊢
      rcases hr : shuffleGo genPerm none rest with e | r
      · rw [hr] at ih
        simp only [shuffleGo, hr]
        simpa using ih
      · rw [hr] at ih
        simp only [shuffleGo, hr]
        simpa using ih
    | some l =>
      have hgo := shuffleGo_some_isOk α genPerm l.length (genPerm l.length) rest
      rcases hr : shuffleGo genPerm (some (l.length, genPerm l.length)) rest with e | r
      · rw [hr] at hgo
        simp [shuffle, shuffleGo, hr, Except.isOk, Except.toBool] at hgo ⊢
        exact hgo
      · rw [hr] at hgo
        simp [shuffle, shuffleGo, hr, Except.isOk, Except.toBool] at hgo ⊢
        exact hgo

/-- Once the permutation state `(n, p)` is fixed, the loop reindexes every
remaining non-`None` array (all of leading length `n`) by `p` and keeps
`None` entries in place. -/
lemma shuffleGo_some_ok (α : Type) [Inhabited α] (genPerm : ℕ → List ℕ)
    (n : ℕ) (p : List ℕ) (arrays : List (Option (List α)))
    (h : ∀ a ∈ arrays, ∀ l ∈ a, l.length = n) :
    shuffleGo genPerm (some (n, p)) arrays =
      Except.ok (arrays.map (Option.map (applyPerm p))) := by
  induction arrays with
  | nil => rfl
  | cons a rest ih =>
    have hrest := ih (fun a ha l hl => h a (List.mem_cons_of_mem _ ha) l hl)
    cases a with
    | none => simp [shuffleGo, hrest]
    | some l =>
      have hl : l.length = n := h (some l) (List.mem_cons_self _ _) l rfl
      simp [shuffleGo, hl, hrest]

/-- Before the permutation state is set: the first non-`None` array fixes
`n` and the drawn permutation `genPerm n`, and the whole result is every
array reindexed by it. -/
lemma shuffleGo_none_ok (α : Type) [Inhabited α] (genPerm : ℕ → List ℕ)
    (n : ℕ) (arrays : List (Option (List α)))
    (h : ∀ a ∈ arrays, ∀ l ∈ a, l.length = n) :
    shuffleGo genPerm none arrays =
      Except.ok (arrays.map (Option.map (applyPerm (genPerm n)))) := by
  induction arrays with
  | nil => rfl
  | cons a rest ih =>
    cases a with
    | none =>
      have hrest := ih (fun a ha l hl => h a (List.mem_cons_of_mem _ ha) l hl)
      simp [shuffleGo, hrest]
    | some l =>
      have hl : l.length = n := h (some l) (List.mem_cons_self _ _) l rfl
      have hrest := shuffleGo_some_ok α genPerm n (genPerm n) rest
        (fun a ha l hl => h a (List.mem_cons_of_mem _ ha) l hl)
      subst hl
      simp [shuffleGo, hrest]

/-- C3 (confirmed): on arguments that are each `None` or an array of
leading length `n`, and with `np.random.permutation n` producing a
permutation of `0..n-1`, `shuffle` succeeds and one single permutation
reindexes every non-`None` argument while `None` arguments pass through
in place. -/
theorem shuffle_single_permutation (α : Type) [Inhabited α] (genPerm : ℕ → List ℕ)
    (arrays : List (Option (List α))) (n : ℕ)
    (hlen : ∀ a ∈ arrays, ∀ l ∈ a, l.length = n)
    (hperm : (genPerm n).Perm (List.range n)) :
    ∃ p : List ℕ, p.Perm (List.range n) ∧
      shuffle genPerm arrays = Except.ok (arrays.map (Option.map (applyPerm p))) :=
  ⟨genPerm n, hperm, shuffleGo_none_ok α genPerm n arrays hlen⟩

/-- C3 witness: shuffling `[some [5, 6], none, some [7, 8]]` with the
reversing permutation source at `n = 2`. -/
theorem shuffle_single_permutation_witness :
    (∀ a ∈ ([some [5, 6], none, some [7, 8]] : List (Option (List ℕ))),
      ∀ l ∈ a, l.length = 2) ∧
    ((fun k => (List.range k).reverse) 2).Perm (List.range 2) ∧
    (∃ p : List ℕ, p.Perm (List.range 2) ∧
      shuffle (fun k => (List.range k).reverse)
          ([some [5, 6], none, some [7, 8]] : List (Option (List ℕ))) =
        Except.ok (([some [5, 6], none, some [7, 8]] : List (Option (List ℕ))).map
          (Option.map (applyPerm p)))) :=
  ⟨by intro a ha l hl; subst hl; simp at ha; rcases ha with rfl | rfl <;> rfl, by decide,
    shuffle_single_permutation ℕ (fun k => (List.range k).reverse)
      [some [5, 6], none, some [7, 8]] 2
      (by intro a ha l hl; subst hl; simp at ha; rcases ha with rfl | rfl <;> rfl)
      (by decide)⟩

lemma fle_refl (a : FloatVal) : fle a a = true := by
  cases a <;> simp [fle]

lemma fle_total (a b : FloatVal) : fle a b = true ∨ fle b a = true := by
  cases a <;> cases b <;> simp [fle]
  exact le_total _ _

lemma fle_trans {a b c : FloatVal} (h1 : fle a b = true) (h2 : fle b c = true) :
    fle a c = true := by
  cases a <;> cases b <;> cases c <;> simp_all [fle]
  exact le_trans h1 h2

lemma fle_fmin_left (a b : FloatVal) : fle (fmin a b) a = true := by
  unfold fmin
  split
  · exact fle_refl a
  · rename_i h
    rcases fle_total a b with h1 | h2
    · exact absurd h1 h
    · exact h2

lemma fle_fmin_right (a b : FloatVal) : fle (fmin a b) b = true := by
  unfold fmin
  split
  · assumption
  · exact fle_refl b

lemma fle_fmax_left (a b : FloatVal) : fle a (fmax a b) = true := by
  unfold fmax
  split
  · assumption
  · exact fle_refl a

lemma fle_fmax_right (a b : FloatVal) : fle b (fmax a b) = true := by
  unfold fmax
  split
  · exact fle_refl b
  · rename_i h
    rcases fle_total a b with h1 | h2
    · exact absurd h1 h
    · exact h2

lemma foldl_fmin_mem (x : FloatVal) (xs : List FloatVal) : xs.foldl fmin x ∈ x :: xs := by
  induction xs generalizing x with
  | nil => simp
  | cons y ys ih =>
    simp only [List.foldl_cons]
    rcases List.mem_cons.mp (ih (fmin x y)) with h | h
    · rw [h]
      unfold fmin
      split
      · exact List.mem_cons_self _ _
      · exact List.mem_cons_of_mem _ (List.mem_cons_self _ _)
    · exact List.mem_cons_of_mem _ (List.mem_cons_of_mem _ h)

lemma foldl_fmax_mem (x : FloatVal) (xs : List FloatVal) : xs.foldl fmax x ∈ x :: xs := by
  induction xs generalizing x with
  | nil => simp
  | cons y ys ih =>
    simp only [List.foldl_cons]
    rcases List.mem_cons.mp (ih (fmax x y)) with h | h
    · rw [h]
      unfold fmax
      split
      · exact List.mem_cons_of_mem _ (List.mem_cons_self _ _)
      · exact List.mem_cons_self _ _
    · exact List.mem_cons_of_mem _ (List.mem_cons_of_mem _ h)

lemma foldl_fmin_le (x : FloatVal) (xs : List FloatVal) :
    ∀ y ∈ x :: xs, fle (xs.foldl fmin x) y = true := by
  induction xs generalizing x with
  | nil =>
    intro y hy
    simp at hy
    subst hy
    exact fle_refl y
  | cons z zs ih =>
    intro y hy
    simp only [List.foldl_cons]
    have hle : fle (zs.foldl fmin (fmin x z)) (fmin x z) = true :=
      ih (fmin x z) (fmin x z) (List.mem_cons_self _ _)
    rcases List.mem_cons.mp hy with rfl | hy2
    · exact fle_trans hle (fle_fmin_left y z)
    · rcases List.mem_cons.mp hy2 with rfl | hy3
      · exact fle_trans hle (fle_fmin_right x y)
      · exact ih (fmin x z) y (List.mem_cons_of_mem _ hy3)

lemma foldl_fmax_ge (x : FloatVal) (xs : List FloatVal) :
    ∀ y ∈ x :: xs, fle y (xs.foldl fmax x) = true := by
  induction xs generalizing x with
  | nil =>
    intro y hy
    simp at hy
    subst hy
    exact fle_refl y
  | cons z zs ih =>
    intro y hy
    simp only [List.foldl_cons]
    have hge : fle (fmax x z) (zs.foldl fmax (fmax x z)) = true :=
      ih (fmax x z) (fmax x z) (List.mem_cons_self _ _)
    rcases List.mem_cons.mp hy with rfl | hy2
    · exact fle_trans (fle_fmax_left y z) hge
    · rcases List.mem_cons.mp hy2 with rfl | hy3
      · exact fle_trans (fle_fmax_right x y) hge
      · exact ih (fmax x z) y (List.mem_cons_of_mem _ hy3)

/-- `np.nanmin` picks a non-NaN entry of the array that is a lower bound
of every non-NaN entry (whenever one exists). -/
lemma nanminVal_spec (data : List FloatVal) (h : ∃ x ∈ data, x.isNan = false) :
    nanminVal data ∈ data ∧ (nanminVal data).isNan = false ∧
      ∀ y ∈ data, y.isNan = false → fle (nanminVal data) y = true := by
  obtain ⟨x0, hx0, hx0n⟩ := h
  have hfil : x0 ∈ data.filter (fun x => !x.isNan) :=
    List.mem_filter.mpr ⟨hx0, by simp [hx0n]⟩
  rcases hdf : data.filter (fun x => !x.isNan) with _ | ⟨x, xs⟩
  · rw [hdf] at hfil
    cases hfil
  · have hveq : nanminVal data = xs.foldl fmin x := by
      simp only [nanminVal, hdf]
    have hmem : nanminVal data ∈ x :: xs := hveq ▸ foldl_fmin_mem x xs
    rw [← hdf] at hmem
    have hmem2 := List.mem_filter.mp hmem
    refine ⟨hmem2.1, by simpa using hmem2.2, ?_⟩
    intro y hy hyn
    have hyf : y ∈ data.filter (fun x => !x.isNan) :=
      List.mem_filter.mpr ⟨hy, by simp [hyn]⟩
    rw [hdf] at hyf
    rw [hveq]
    exact foldl_fmin_le x xs y hyf

/-- `np.nanmax` picks a non-NaN entry of the array that is an upper bound
of every non-NaN entry (whenever one exists). -/
lemma nanmaxVal_spec (data : List FloatVal) (h : ∃ x ∈ data, x.isNan = false) :
    nanmaxVal data ∈ data ∧ (nanmaxVal data).isNan = false ∧
      ∀ y ∈ data, y.isNan = false → fle y (nanmaxVal data) = true := by
  obtain ⟨x0, hx0, hx0n⟩ := h
  have hfil : x0 ∈ data.filter (fun x => !x.isNan) :=
    List.mem_filter.mpr ⟨hx0, by simp [hx0n]⟩
  rcases hdf : data.filter (fun x => !x.isNan) with _ | ⟨x, xs⟩
  · rw [hdf] at hfil
    cases hfil
  · have hveq : nanmaxVal data = xs.foldl fmax x := by
      simp only [nanmaxVal, hdf]
    have hmem : nanmaxVal data ∈ x :: xs := hveq ▸ foldl_fmax_mem x xs
    rw [← hdf] at hmem
    have hmem2 := List.mem_filter.mp hmem
    refine ⟨hmem2.1, by simpa using hmem2.2, ?_⟩
    intro y hy hyn
    have hyf : y ∈ data.filter (fun x => !x.isNan) :=
      List.mem_filter.mpr ⟨hy, by simp [hyn]⟩
    rw [hdf] at hyf
    rw [hveq]
    exact foldl_fmax_ge x xs y hyf

/-- C2 (amended): whenever the loaded array has a non-NaN entry,
`load_and_check` computes a minimum `m` and maximum `M` over the non-NaN
entries only — ±Inf entries included, contrary to the claim's
"finite entries only" — and the range warning fires exactly when
`|m| > t` or `|M| > t` (an infinite `m` or `M` exceeding every finite
threshold). -/
theorem load_and_check_range_warning (γ : Type) (f : γ) (load : γ → List FloatVal)
    (t : ℚ) (h : ∃ x ∈ load f, x.isNan = false) :
    ∃ m M, m ∈ load f ∧ M ∈ load f ∧ m.isNan = false ∧ M.isNan = false ∧
      (∀ y ∈ load f, y.isNan = false → (fle m y = true ∧ fle y M = true)) ∧
      (∃ r, load_and_check (some f) load t = Except.ok r ∧
        r.rangeWarning = (absGT m t || absGT M t)) := by
  obtain ⟨hm1, hm2, hm3⟩ := nanminVal_spec (load f) h
  obtain ⟨hM1, hM2, hM3⟩ := nanmaxVal_spec (load f) h
  obtain ⟨x0, hx0, _⟩ := h
  exact ⟨nanminVal (load f), nanmaxVal (load f), hm1, hM1, hm2, hM2,
    fun y hy hyn => ⟨hm3 y hy hyn, hM3 y hy hyn⟩,
    ⟨_, load_and_check_some_ne_nil f load t (List.ne_nil_of_mem hx0), rfl⟩⟩

/-- C2 witness: the array `[1, 2]` with threshold 5. -/
theorem load_and_check_range_warning_witness :
    (∃ x ∈ [FloatVal.fin 1, FloatVal.fin 2], x.isNan = false) ∧
    (∃ m M, m ∈ [FloatVal.fin 1, FloatVal.fin 2] ∧ M ∈ [FloatVal.fin 1, FloatVal.fin 2] ∧
      m.isNan = false ∧ M.isNan = false ∧
      (∀ y ∈ [FloatVal.fin 1, FloatVal.fin 2], y.isNan = false →
        (fle m y = true ∧ fle y M = true)) ∧
      (∃ r, load_and_check (some 0) (fun _ : ℕ => [FloatVal.fin 1, FloatVal.fin 2]) 5 =
          Except.ok r ∧
        r.rangeWarning = (absGT m 5 || absGT M 5))) :=
  ⟨⟨FloatVal.fin 1, by simp, rfl⟩,
    load_and_check_range_warning ℕ 0 (fun _ => [FloatVal.fin 1, FloatVal.fin 2]) 5
      ⟨FloatVal.fin 1, by simp, rfl⟩⟩

/-- C2 counterexample: for the array `[1.0, inf]` with the default
threshold `1e9`, the code's range warning fires (`np.nanmax` is `inf`,
and `np.abs(inf) > 1e9`), while the claim's finite-only minimum and
maximum are both 1, which does not exceed the threshold. -/
theorem load_and_check_finite_counterexample :
    (∃ r, load_and_check (some 0) (fun _ : ℕ => [FloatVal.fin 1, FloatVal.inf])
        (10 ^ 9) = Except.ok r ∧ r.rangeWarning = true) ∧
    finite_range_warning [FloatVal.fin 1, FloatVal.inf] (10 ^ 9) = false := by
  constructor
  · refine ⟨_, load_and_check_some_ne_nil 0
      (fun _ : ℕ => [FloatVal.fin 1, FloatVal.inf]) (10 ^ 9) (by simp), ?_⟩
    have h2 : nanmaxVal [FloatVal.fin 1, FloatVal.inf] = FloatVal.inf := by
      simp [nanmaxVal, FloatVal.isNan, List.filter, fmax, fle]
    show (absGT (nanminVal [FloatVal.fin 1, FloatVal.inf]) (10 ^ 9) ||
      absGT (nanmaxVal [FloatVal.fin 1, FloatVal.inf]) (10 ^ 9)) = true
    rw [h2]
    simp [absGT]
  · simp only [finite_range_warning, List.filterMap, List.foldl]
    norm_num

/-- Python's `max` over a nonempty list of naturals, as the fold in
`nSetsOf`: it bounds every element and is attained by one of them. -/
lemma foldl_max_spec (n0 : ℕ) (ns : List ℕ) :
    (∀ m ∈ n0 :: ns, m ≤ ns.foldl Nat.max n0) ∧ ns.foldl Nat.max n0 ∈ n0 :: ns := by
  induction ns generalizing n0 with
  | nil =>
    constructor
    · intro m hm
      simp at hm
      subst hm
      exact le_refl _
    · simp
  | cons k ks ih =>
    obtain ⟨ih1, ih2⟩ := ih (Nat.max n0 k)
    constructor
    · intro m hm
      simp only [List.foldl_cons]
      rcases List.mem_cons.mp hm with rfl | hm2
      · exact le_trans (Nat.le_max_left m k) (ih1 _ (List.mem_cons_self _ _))
      · rcases List.mem_cons.mp hm2 with rfl | hm3
        · exact le_trans (Nat.le_max_right n0 m) (ih1 _ (List.mem_cons_self _ _))
        · exact ih1 m (List.mem_cons_of_mem _ hm3)
    · simp only [List.foldl_cons]
      rcases List.mem_cons.mp ih2 with h | h
      · rw [h]
        rcases Nat.le_total n0 k with h2 | h2
        · have h3 : Nat.max n0 k = k := Nat.max_eq_right h2
          rw [h3]
          exact List.mem_cons_of_mem _ (List.mem_cons_self _ _)
        · have h3 : Nat.max n0 k = n0 := Nat.max_eq_left h2
          rw [h3]
          exact List.mem_cons_self _ _
      · exact List.mem_cons_of_mem _ (List.mem_cons_of_mem _ h)

/-- The loop of `balance_thetas`: with aligned per-set lengths and no
empty set, every set comes out extended to length `n` by modulo
indexing (sets already of length `n` unchanged). -/
lemma balanceGo_map (α β : Type) [Inhabited α] [Inhabited β] (n : ℕ)
    (tss : List (List α)) (vss : List (List β))
    (hf : List.Forall₂ (fun (t : List α) (v : List β) => t.length = v.length) tss vss)
    (hnz : ∀ t ∈ tss, t ≠ []) :
    balanceGo n tss vss = Except.ok (tss.map (extendTo n), vss.map (extendTo n)) := by
  induction hf with
  | nil => rfl
  | @cons t v ts vs h1 h2 ih =>
    have hrest := ih (fun x hx => hnz x (List.mem_cons_of_mem _ hx))
    by_cases hn : t.length = n
    · have hvn : v.length = n := by rw [← h1]; exact hn
      simp only [balanceGo, if_pos h1, if_pos hn, hrest]
      simp [extendTo, hn, hvn]
    · have h0 : t.length ≠ 0 := fun hz =>
        (hnz t (List.mem_cons_self _ _)) (List.length_eq_zero.mp hz)
      have hvn : v.length ≠ n := by rw [← h1]; exact hn
      have hv0 : v.length ≠ 0 := by rw [← h1]; exact h0
      simp only [balanceGo, if_pos h1, if_neg hn, if_neg h0, hrest]
      simp [extendTo, hn, hvn, h1]

/-- C4 (confirmed): with parallel theta-set lists of equal per-set
lengths (and no empty set), `n_sets` is the maximum inner length, every
shorter set's types and values lists are replaced by the length-`n_sets`
lists obtained by modulo indexing into the originals, and sets already of
that length are unchanged. -/
theorem balance_thetas_spec (α β : Type) [Inhabited α] [Inhabited β]
    (tss : List (List α)) (vss : List (List β)) (n : ℕ)
    (hpar : List.Forall₂ (fun (t : List α) (v : List β) => t.length = v.length) tss vss)
    (hnz : ∀ t ∈ tss, t ≠ [])
    (hmax : nSetsOf tss = Except.ok n) :
    (∀ t ∈ tss, t.length ≤ n) ∧ (∃ t ∈ tss, t.length = n) ∧
      balance_thetas tss vss = Except.ok (tss.map (extendTo n), vss.map (extendTo n)) := by
  rcases hm : tss.map List.length with _ | ⟨n0, ns⟩
  · simp only [nSetsOf, hm] at hmax
    cases hmax
  · simp only [nSetsOf, hm] at hmax
    cases hmax
    obtain ⟨hle, hmem⟩ := foldl_max_spec n0 ns
    refine ⟨?_, ?_, ?_⟩
    · intro t ht
      exact hle t.length (hm ▸ List.mem_map_of_mem List.length ht)
    · have hmm : ns.foldl Nat.max n0 ∈ tss.map List.length := by
        rw [hm]
        exact hmem
      obtain ⟨t, ht, hteq⟩ := List.mem_map.mp hmm
      exact ⟨t, ht, hteq⟩
    · simp only [balance_thetas, nSetsOf, hm]
      exact balanceGo_map α β (ns.foldl Nat.max n0) tss vss hpar hnz

/-- C4 witness: the claim's example shape, set lengths `[2, 3, 1]`
balanced to length 3, the 2-set `[1, 2]` becoming `[1, 2, 1]`. -/
theorem balance_thetas_spec_witness :
    List.Forall₂ (fun (t : List ℕ) (v : List ℤ) => t.length = v.length)
      [[1, 2], [3, 4, 5], [6]] [[9, 8], [7, 6, 5], [4]] ∧
    (∀ t ∈ ([[1, 2], [3, 4, 5], [6]] : List (List ℕ)), t ≠ []) ∧
    nSetsOf ([[1, 2], [3, 4, 5], [6]] : List (List ℕ)) = Except.ok 3 ∧
    ((∀ t ∈ ([[1, 2], [3, 4, 5], [6]] : List (List ℕ)), t.length ≤ 3) ∧
      (∃ t ∈ ([[1, 2], [3, 4, 5], [6]] : List (List ℕ)), t.length = 3) ∧
      balance_thetas ([[1, 2], [3, 4, 5], [6]] : List (List ℕ))
          ([[9, 8], [7, 6, 5], [4]] : List (List ℤ)) =
        Except.ok (([[1, 2], [3, 4, 5], [6]] : List (List ℕ)).map (extendTo 3),
          ([[9, 8], [7, 6, 5], [4]] : List (List ℤ)).map (extendTo 3))) :=
  ⟨List.Forall₂.cons rfl (List.Forall₂.cons rfl (List.Forall₂.cons rfl List.Forall₂.nil)),
    by decide, rfl,
    balance_thetas_spec ℕ ℤ [[1, 2], [3, 4, 5], [6]] [[9, 8], [7, 6, 5], [4]] 3
      (List.Forall₂.cons rfl (List.Forall₂.cons rfl (List.Forall₂.cons rfl List.Forall₂.nil)))
      (by decide) rfl⟩

lemma mem_inits_trans {p q r : List String} (hq : q ∈ p.inits) (hr : r ∈ q.inits) :
    r ∈ p.inits :=
  (List.mem_inits _ _).mpr (((List.mem_inits _ _).mp hr).trans ((List.mem_inits _ _).mp hq))

lemma self_mem_inits (p : List String) : p ∈ p.inits :=
  (List.mem_inits _ _).mpr ⟨[], List.append_nil p⟩

lemma makedirs_ok {fs : Fs} {p : List String} {fs2 : Fs}
    (h : makedirs fs p = Except.ok fs2) :
    fs2 = ⟨p.inits ++ fs.dirs, fs.files⟩ := by
  unfold makedirs at h
  split at h
  · cases h
  · cases h
    rfl

lemma makedirs_ok_no_file {fs : Fs} {p : List String} {fs2 : Fs}
    (h : makedirs fs p = Except.ok fs2) :
    ∀ q ∈ p.inits, q ∉ fs.files := by
  unfold makedirs at h
  split at h
  · cases h
  · rename_i hcond
    intro q hq hqf
    exact hcond (by simp only [List.any_eq_true, decide_eq_true_eq]; exact ⟨q, hq, hqf⟩)

lemma makedirs_ok_of (fs : Fs) (p : List String)
    (hno : ∀ q ∈ p.inits, q ∉ fs.files) :
    makedirs fs p = Except.ok ⟨p.inits ++ fs.dirs, fs.files⟩ := by
  unfold makedirs
  rw [if_neg ?hc]
  case hc =>
    simp only [List.any_eq_true, decide_eq_true_eq]
    rintro ⟨q, hq, hqf⟩
    exact hno q hq hqf

lemma makedirs_wf {fs : Fs} {p : List String} {fs2 : Fs}
    (hwf : Fs.wf fs) (h : makedirs fs p = Except.ok fs2) : Fs.wf fs2 := by
  have hno := makedirs_ok_no_file h
  have hfs2 := makedirs_ok h
  subst hfs2
  constructor
  · intro q hq r hr
    simp only [List.mem_append] at hq ⊢
    rcases hq with hq | hq
    · exact Or.inl (mem_inits_trans hq hr)
    · exact Or.inr (hwf.1 q hq r hr)
  · intro q hq
    simp only [List.mem_append] at hq
    rcases hq with hq | hq
    · exact hno q hq
    · exact hwf.2 q hq

/-- Success of `create_missing_folders` leaves files untouched and only
grows the set of directories. -/
lemma create_ok_files_dirs {fs : Fs} {ps : List (List String)} {fs2 : Fs}
    (h : create_missing_folders fs ps = Except.ok fs2) :
    fs2.files = fs.files ∧ ∀ q ∈ fs.dirs, q ∈ fs2.dirs := by
  induction ps generalizing fs with
  | nil =>
    cases h
    exact ⟨rfl, fun q hq => hq⟩
  | cons p ps ih =>
    simp only [create_missing_folders] at h
    by_cases he : fs.existsPath p = false
    · rw [if_pos he] at h
      rcases hmk : makedirs fs p with e1 | fs1
      · rw [hmk] at h
        cases h
      · rw [hmk] at h
        obtain ⟨h1, h2⟩ := ih h
        rw [makedirs_ok hmk] at h1 h2
        exact ⟨h1, fun q hq => h2 q (List.mem_append_right _ hq)⟩
    · rw [if_neg he] at h
      by_cases hd : fs.isDir p = false
      · rw [if_pos hd] at h
        cases h
      · rw [if_neg hd] at h
        exact ih h

lemma create_ok_wf {fs : Fs} {ps : List (List String)} {fs2 : Fs}
    (hwf : Fs.wf fs) (h : create_missing_folders fs ps = Except.ok fs2) :
    Fs.wf fs2 := by
  induction ps generalizing fs with
  | nil =>
    cases h
    exact hwf
  | cons p ps ih =>
    simp only [create_missing_folders] at h
    by_cases he : fs.existsPath p = false
    · rw [if_pos he] at h
      rcases hmk : makedirs fs p with e1 | fs1
      · rw [hmk] at h
        cases h
      · rw [hmk] at h
        exact ih (makedirs_wf hwf hmk) h
    · rw [if_neg he] at h
      by_cases hd : fs.isDir p = false
      · rw [if_pos hd] at h
        cases h
      · rw [if_neg hd] at h
        exact ih hwf h

/-- When every listed path is already a directory, `create_missing_folders`
does nothing. -/
lemma create_all_dirs {fs : Fs} {ps : List (List String)}
    (hall : ∀ p ∈ ps, p ∈ fs.dirs) :
    create_missing_folders fs ps = Except.ok fs := by
  induction ps with
  | nil => rfl
  | cons p ps ih =>
    have hp := hall p (List.mem_cons_self _ _)
    simp only [create_missing_folders]
    rw [if_neg (by simp [Fs.existsPath, hp]), if_neg (by simp [Fs.isDir, hp])]
    exact ih (fun x hx => hall x (List.mem_cons_of_mem _ hx))

/-- Success of `create_missing_folders` makes every listed path, with all
its ancestors, a directory. -/
lemma create_ok_dirs {fs : Fs} {ps : List (List String)} {fs2 : Fs}
    (hwf : Fs.wf fs) (h : create_missing_folders fs ps = Except.ok fs2) :
    ∀ p ∈ ps, ∀ q ∈ p.inits, q ∈ fs2.dirs := by
  induction ps generalizing fs with
  | nil =>
    intro p hp
    cases hp
  | cons p ps ih =>
    simp only [create_missing_folders] at h
    by_cases he : fs.existsPath p = false
    · rw [if_pos he] at h
      rcases hmk : makedirs fs p with e1 | fs1
      · rw [hmk] at h
        cases h
      · rw [hmk] at h
        intro x hx q hq
        rcases List.mem_cons.mp hx with rfl | hx2
        · have hq1 : q ∈ fs1.dirs := by
            rw [makedirs_ok hmk]
            exact List.mem_append_left _ hq
          exact (create_ok_files_dirs h).2 q hq1
        · exact ih (makedirs_wf hwf hmk) h x hx2 q hq
    · rw [if_neg he] at h
      by_cases hd : fs.isDir p = false
      · rw [if_pos hd] at h
        cases h
      · rw [if_neg hd] at h
        intro x hx q hq
        rcases List.mem_cons.mp hx with rfl | hx2
        · have hpd : x ∈ fs.dirs := by simpa [Fs.isDir] using hd
          exact (create_ok_files_dirs h).2 q (hwf.1 x hpd q hq)
        · exact ih hwf h x hx2 q hq

/-- Success of `create_missing_folders` means no listed path was a
non-directory entry. -/
lemma create_ok_no_file {fs : Fs} {ps : List (List String)} {fs2 : Fs}
    (hwf : Fs.wf fs) (h : create_missing_folders fs ps = Except.ok fs2) :
    ∀ p ∈ ps, p ∉ fs.files := by
  induction ps generalizing fs with
  | nil =>
    intro p hp
    cases hp
  | cons p ps ih =>
    simp only [create_missing_folders] at h
    by_cases he : fs.existsPath p = false
    · rw [if_pos he] at h
      rcases hmk : makedirs fs p with e1 | fs1
      · rw [hmk] at h
        cases h
      · rw [hmk] at h
        intro x hx
        rcases List.mem_cons.mp hx with rfl | hx2
        · simp [Fs.existsPath] at he
          exact he.2
        · have hx3 := ih (makedirs_wf hwf hmk) h x hx2
          rw [makedirs_ok hmk] at hx3
          exact hx3
    · rw [if_neg he] at h
      by_cases hd : fs.isDir p = false
      · rw [if_pos hd] at h
        cases h
      · rw [if_neg hd] at h
        intro x hx
        rcases List.mem_cons.mp hx with rfl | hx2
        · have hpd : x ∈ fs.dirs := by simpa [Fs.isDir] using hd
          exact hwf.2 x hpd
        · exact ih hwf h x hx2

/-- With no ancestor of a listed path existing as a file,
`create_missing_folders` succeeds whenever no listed path itself is a
file. -/
lemma create_ok_of_no_file {fs : Fs} {ps : List (List String)}
    (hwf : Fs.wf fs)
    (hanc : ∀ p ∈ ps, ∀ q ∈ p.inits, q ≠ p → q ∉ fs.files)
    (hnf : ∀ p ∈ ps, p ∉ fs.files) :
    ∃ fs2, create_missing_folders fs ps = Except.ok fs2 := by
  induction ps generalizing fs with
  | nil => exact ⟨fs, rfl⟩
  | cons p ps ih =>
    by_cases he : fs.existsPath p = false
    · have hno : ∀ q ∈ p.inits, q ∉ fs.files := by
        intro q hq
        by_cases hqp : q = p
        · subst hqp
          exact hnf q (List.mem_cons_self _ _)
        · exact hanc p (List.mem_cons_self _ _) q hq hqp
      have hmk := makedirs_ok_of fs p hno
      have hwf1 : Fs.wf ⟨p.inits ++ fs.dirs, fs.files⟩ := makedirs_wf hwf hmk
      obtain ⟨fs2, h2⟩ := ih hwf1
        (fun x hx q hq hqp => hanc x (List.mem_cons_of_mem _ hx) q hq hqp)
        (fun x hx => hnf x (List.mem_cons_of_mem _ hx))
      refine ⟨fs2, ?_⟩
      simp only [create_missing_folders, if_pos he, hmk]
      exact h2
    · by_cases hd : fs.isDir p = false
      · exfalso
        have hex2 : p ∈ fs.dirs ∨ p ∈ fs.files :=
          or_iff_not_imp_left.mpr (by simpa [Fs.existsPath] using he)
        rcases hex2 with h1 | h1
        · simp [Fs.isDir, h1] at hd
        · exact hnf p (List.mem_cons_self _ _) h1
      · obtain ⟨fs2, h2⟩ := ih hwf
          (fun x hx q hq hqp => hanc x (List.mem_cons_of_mem _ hx) q hq hqp)
          (fun x hx => hnf x (List.mem_cons_of_mem _ hx))
        refine ⟨fs2, ?_⟩
        simp only [create_missing_folders]
        rw [if_neg he, if_neg hd]
        exact h2

/-- A failure of `create_missing_folders` (no ancestor conflicts) is the
path-conflict error, naming a listed path that exists as a file. -/
lemma create_error_char {fs : Fs} {ps : List (List String)}
    (hwf : Fs.wf fs)
    (hanc : ∀ p ∈ ps, ∀ q ∈ p.inits, q ≠ p → q ∉ fs.files) :
    ∀ e, create_missing_folders fs ps = Except.error e →
      ∃ p ∈ ps, e = MMError.pathConflict p ∧ p ∈ fs.files := by
  induction ps generalizing fs with
  | nil =>
    intro e h
    cases h
  | cons p ps ih =>
    intro e h
    simp only [create_missing_folders] at h
    by_cases he : fs.existsPath p = false
    · rw [if_pos he] at h
      rcases hmk : makedirs fs p with e1 | fs1
      · exfalso
        unfold makedirs at hmk
        split at hmk
        · rename_i hcond
          simp only [List.any_eq_true, decide_eq_true_eq] at hcond
          obtain ⟨q, hq, hqf⟩ := hcond
          by_cases hqp : q = p
          · subst hqp
            simp [Fs.existsPath] at he
            exact he.2 hqf
          · exact hanc p (List.mem_cons_self _ _) q hq hqp hqf
        · cases hmk
      · rw [hmk] at h
        have hfs1 := makedirs_ok hmk
        obtain ⟨x, hx, hex1, hex2⟩ := ih (makedirs_wf hwf hmk)
          (by
            rw [hfs1]
            exact fun x hx q hq hqp => hanc x (List.mem_cons_of_mem _ hx) q hq hqp)
          e h
        rw [hfs1] at hex2
        exact ⟨x, List.mem_cons_of_mem _ hx, hex1, hex2⟩
    · rw [if_neg he] at h
      by_cases hd : fs.isDir p = false
      · rw [if_pos hd] at h
        cases h
        refine ⟨p, List.mem_cons_self _ _, rfl, ?_⟩
        have hex2 : p ∈ fs.dirs ∨ p ∈ fs.files :=
          or_iff_not_imp_left.mpr (by simpa [Fs.existsPath] using he)
        rcases hex2 with h1 | h1
        · exfalso
          simp [Fs.isDir, h1] at hd
        · exact h1
      · rw [if_neg hd] at h
        obtain ⟨x, hx, hex⟩ := ih hwf
          (fun x hx q hq hqp => hanc x (List.mem_cons_of_mem _ hx) q hq hqp) e h
        exact ⟨x, List.mem_cons_of_mem _ hx, hex⟩

/-- C8 (confirmed): on a well-formed filesystem where no strict ancestor
of a listed path is a file, `create_missing_folders` succeeds exactly
when no listed path exists as a non-directory; a failure is the
path-conflict error naming an offending listed path; and on success every
listed path and all its ancestors are directories, no file is touched,
and a second run on the result is an error-free no-op. -/
theorem create_missing_folders_spec (fs : Fs) (ps : List (List String))
    (hwf : Fs.wf fs)
    (hanc : ∀ p ∈ ps, ∀ q ∈ p.inits, q ≠ p → q ∉ fs.files) :
    ((∃ fs2, create_missing_folders fs ps = Except.ok fs2) ↔ ∀ p ∈ ps, p ∉ fs.files) ∧
    (∀ e, create_missing_folders fs ps = Except.error e →
      ∃ p ∈ ps, e = MMError.pathConflict p ∧ p ∈ fs.files) ∧
    (∀ fs2, create_missing_folders fs ps = Except.ok fs2 →
      (∀ p ∈ ps, ∀ q ∈ p.inits, q ∈ fs2.dirs) ∧ fs2.files = fs.files ∧
        create_missing_folders fs2 ps = Except.ok fs2) := by
  refine ⟨⟨?_, ?_⟩, ?_, ?_⟩
  · rintro ⟨fs2, h2⟩
    exact create_ok_no_file hwf h2
  · intro hnf
    exact create_ok_of_no_file hwf hanc hnf
  · intro e he
    exact create_error_char hwf hanc e he
  · intro fs2 h2
    exact ⟨create_ok_dirs hwf h2, (create_ok_files_dirs h2).1,
      create_all_dirs (fun p hp => create_ok_dirs hwf h2 p hp p (self_mem_inits p))⟩

/-- C8 witness: creating `a/b` twice from an empty filesystem. -/
theorem create_missing_folders_spec_witness :
    Fs.wf ⟨[], []⟩ ∧
    (∀ p ∈ [["a", "b"], ["a", "b"]], ∀ q ∈ p.inits, q ≠ p → q ∉ (Fs.mk [] []).files) ∧
    (((∃ fs2, create_missing_folders ⟨[], []⟩ [["a", "b"], ["a", "b"]] = Except.ok fs2) ↔
        ∀ p ∈ [["a", "b"], ["a", "b"]], p ∉ (Fs.mk [] []).files) ∧
      (∀ e, create_missing_folders ⟨[], []⟩ [["a", "b"], ["a", "b"]] = Except.error e →
        ∃ p ∈ [["a", "b"], ["a", "b"]], e = MMError.pathConflict p ∧ p ∈ (Fs.mk [] []).files) ∧
      (∀ fs2, create_missing_folders ⟨[], []⟩ [["a", "b"], ["a", "b"]] = Except.ok fs2 →
        (∀ p ∈ [["a", "b"], ["a", "b"]], ∀ q ∈ p.inits, q ∈ fs2.dirs) ∧
          fs2.files = (Fs.mk [] []).files ∧
          create_missing_folders fs2 [["a", "b"], ["a", "b"]] = Except.ok fs2)) :=
  ⟨⟨fun p hp => (List.not_mem_nil p hp).elim, fun p hp => (List.not_mem_nil p hp).elim⟩,
    fun _ _ q _ _ => List.not_mem_nil q,
    create_missing_folders_spec ⟨[], []⟩ [["a", "b"], ["a", "b"]]
      ⟨fun p hp => (List.not_mem_nil p hp).elim, fun p hp => (List.not_mem_nil p hp).elim⟩
      (fun _ _ q _ _ => List.not_mem_nil q)⟩

end Madminer
